import Mathlib

/-!
Consistent hashing ring: a verification development.

A shallow embedding of `consistent_hashing/consistent_hashing.go`.

* Go strings are byte sequences: `GoString` is `List UInt8`.
* `int64` and `int` values are mathematical integers (`Int`); `int` is taken to be 64 bits
  wide, so `int(c.currentSlots)` is the identity.  `math/big` integers are `Int`.
* Slices are lists.  Only the ring itself holds its slices, so aliasing is not observable.
* A method that can stop the program returns `Except Failure α`; a method of the ring returns
  that result together with the ring as it is in memory when the method stops, so that
  "the ring is left unchanged" can be stated for a failing call too.
* `crypto/sha256`, `sort.Search`, `slices.Insert` and `slices.Delete` are library code; they
  are embedded from their published definitions.
-/

set_option maxRecDepth 100000

namespace CHash

/-! ## Run-time failures -/

/-- How a call can stop without returning: `log.Fatal`/`log.Fatalf` (message logged, process
exits), a run-time panic of the Go runtime, or a loop of the model that ran out of fuel. -/
inductive Failure where
  | fatal (msg : String)
  | divisionByZero
  | indexOutOfRange
  | outOfFuel
deriving DecidableEq, Repr

deriving instance DecidableEq for Except

/-! ## Data model -/

/-- A Go `string`: an immutable sequence of bytes. -/
abbrev GoString := List UInt8

/-- The bytes of a string literal (Go source text is UTF-8). -/
def str (s : String) : GoString := s.data.flatMap String.utf8EncodeChar

/-- The struct `StorageNode`, with its fields `name` and `host`. -/
structure StorageNode where
  name : GoString
  host : GoString
deriving DecidableEq, Repr

/-- The struct `ConsistentHashing`: the capacity `totalSlots`, the counter `currentSlots`,
and the two parallel slices `keys` (slots) and `nodes`. -/
structure ConsistentHashing where
  totalSlots : Int
  currentSlots : Int
  keys : List Int
  nodes : List StorageNode
deriving DecidableEq, Repr

/-- The constructor `NewConsistentHashing(totalNodes)`: both slices are nil, the counter is zero. -/
def NewConsistentHashing (totalNodes : Int) : ConsistentHashing :=
  { totalSlots := totalNodes, currentSlots := 0, keys := [], nodes := [] }

/-! ## SHA-256 (`crypto/sha256`, FIPS 180-4) -/

/-- Bit-by-bit search for the largest `r` with `r ^ k ≤ x`, trying the bits `b - 1, …, 0`. -/
def irootLoop (k x : Nat) : Nat → Nat → Nat
  | 0, r => r
  | b + 1, r => irootLoop k x b (if (r + 2 ^ b) ^ k ≤ x then r + 2 ^ b else r)

/-- The integer `k`-th root of `x`, for `x < 2 ^ (40 * k)`. -/
def iroot (k x : Nat) : Nat := irootLoop k x 40 0

/-- The first sixty-four prime numbers. -/
def sha256Primes : List Nat :=
  [2, 3, 5, 7, 11, 13, 17, 19, 23, 29, 31, 37, 41, 43, 47, 53,
   59, 61, 67, 71, 73, 79, 83, 89, 97, 101, 103, 107, 109, 113, 127, 131,
   137, 139, 149, 151, 157, 163, 167, 173, 179, 181, 191, 193, 197, 199, 211, 223,
   227, 229, 233, 239, 241, 251, 257, 263, 269, 271, 277, 281, 283, 293, 307, 311]

/-- The sixty-four round constants: the first 32 bits of the fractional parts of the cube
roots of the first sixty-four primes (FIPS 180-4, section 4.2.2). -/
def sha256K : List Nat := sha256Primes.map (fun p => iroot 3 (p * 2 ^ 96) % 2 ^ 32)

/-- The initial hash value: the first 32 bits of the fractional parts of the square roots of
the first eight primes (FIPS 180-4, section 5.3.3). -/
def sha256Init : List Nat := (sha256Primes.take 8).map (fun p => iroot 2 (p * 2 ^ 64) % 2 ^ 32)

/-- Rotate a 32-bit word right by `n` bits. -/
def rotr32 (x n : Nat) : Nat := ((x >>> n) ||| (x <<< (32 - n))) % 2 ^ 32

/-- The unsigned integer whose big-endian base-256 digits are `bs`. -/
def bigEndian (bs : List Nat) : Nat := bs.foldl (fun acc b => acc * 256 + b) 0

/-- The `n` low-order base-256 digits of `x`, most significant first. -/
def toBigEndian : Nat → Nat → List Nat
  | 0, _ => []
  | n + 1, x => toBigEndian n (x / 256) ++ [x % 256]

/-- Message padding: a `0x80` byte, zero bytes up to 56 modulo 64, the bit length on 8 bytes. -/
def sha256Pad (msg : List Nat) : List Nat :=
  msg ++ [0x80] ++ List.replicate ((64 - (msg.length + 9) % 64) % 64) 0
    ++ toBigEndian 8 (8 * msg.length)

/-- The first `n` consecutive pieces of length `k` of a list. -/
def chunks {α : Type} : Nat → Nat → List α → List (List α)
  | 0, _, _ => []
  | n + 1, k, bs => bs.take k :: chunks n k (bs.drop k)

/-- Extend the message schedule by `n` words. -/
def sha256Schedule : Nat → List Nat → List Nat
  | 0, w => w
  | n + 1, w =>
    let t := w.length
    let w2 := w.getD (t - 2) 0
    let w7 := w.getD (t - 7) 0
    let w15 := w.getD (t - 15) 0
    let w16 := w.getD (t - 16) 0
    let s0 := rotr32 w15 7 ^^^ rotr32 w15 18 ^^^ (w15 >>> 3)
    let s1 := rotr32 w2 17 ^^^ rotr32 w2 19 ^^^ (w2 >>> 10)
    sha256Schedule n (w ++ [(s1 + w7 + s0 + w16) % 2 ^ 32])

/-- One round of the compression function on the working variables `a … h`. -/
def sha256Round (s : List Nat) (kw : Nat × Nat) : List Nat :=
  match s with
  | [a, b, c, d, e, f, g, h] =>
    let S1 := rotr32 e 6 ^^^ rotr32 e 11 ^^^ rotr32 e 25
    let ch := (e &&& f) ^^^ ((e ^^^ 0xffffffff) &&& g)
    let t1 := (h + S1 + ch + kw.1 + kw.2) % 2 ^ 32
    let S0 := rotr32 a 2 ^^^ rotr32 a 13 ^^^ rotr32 a 22
    let maj := (a &&& b) ^^^ (a &&& c) ^^^ (b &&& c)
    let t2 := (S0 + maj) % 2 ^ 32
    [(t1 + t2) % 2 ^ 32, a, b, c, (d + t1) % 2 ^ 32, e, f, g]
  | _ => s

/-- Process one 64-byte block. -/
def sha256Block (s : List Nat) (block : List Nat) : List Nat :=
  let w := sha256Schedule 48 ((chunks 16 4 block).map bigEndian)
  let s2 := (sha256K.zip w).foldl sha256Round s
  List.zipWith (fun x y => (x + y) % 2 ^ 32) s s2

/-- The digest `h := sha256.New(); h.Write(msg); h.Sum(nil)`, as a list of byte values. -/
def sha256Sum (msg : GoString) : List Nat :=
  let p := sha256Pad (msg.map UInt8.toNat)
  let s := (chunks (p.length / 64) 64 p).foldl sha256Block sha256Init
  s.flatMap (toBigEndian 4)

/-! ## `math/big` -/

/-- The call `new(big.Int).SetBytes(buf)`: `buf` read as a big-endian unsigned integer. -/
def bigSetBytes (buf : List Nat) : Int := (bigEndian buf : Nat)

/-- The call `x.Int64()`: the low 64 bits of the magnitude, reinterpreted as `int64`, with the sign of
`x` applied in `int64` arithmetic. -/
def bigInt64 (x : Int) : Int :=
  let low : Int := (x.natAbs % 2 ^ 64 : Nat)
  let v : Int := if low < 2 ^ 63 then low else low - 2 ^ 64
  if x < 0 then (if v = -(2 ^ 63) then v else -v) else v

/-- The call `new(big.Int).Mod(a, b)`: Euclidean modulus; run-time panic when `b` is zero. -/
def bigMod (a b : Int) : Except Failure Int :=
  if b = 0 then .error .divisionByZero else .ok (a % b)

/-! ## `sort.Search`, `slices.Insert`, `slices.Delete` -/

/-- The loop of `sort.Search`: `for i < j { h := int(uint(i+j) >> 1); if !f(h) { i = h + 1 }
else { j = h } }; return i`.  Every iteration consumes one unit of fuel. -/
def sortSearchLoop (f : Nat → Except Failure Bool) : Nat → Nat → Nat → Except Failure Nat
  | fuel, i, j =>
    if i < j then
      match fuel with
      | 0 => .error .outOfFuel
      | fuel + 1 =>
        let h := (i + j) / 2
        match f h with
        | .error e => .error e
        | .ok false => sortSearchLoop f fuel (h + 1) j
        | .ok true => sortSearchLoop f fuel i h
    else .ok i

/-- The call `sort.Search(n, f)`, with `i, j := 0, n`.  The interval shrinks at every iteration, so
`n` units of fuel are enough (`sortSearchLoop_spec`). -/
def sortSearch (n : Nat) (f : Nat → Except Failure Bool) : Except Failure Nat :=
  sortSearchLoop f n 0 n

/-- The call `slices.Insert(s, i, v)`: panics when `i > len(s)`. -/
def slicesInsert {α : Type} (s : List α) (i : Nat) (v : α) : Except Failure (List α) :=
  if i ≤ s.length then .ok (s.take i ++ v :: s.drop i) else .error .indexOutOfRange

/-- The call `slices.Delete(s, i, j)`: panics unless `i ≤ j ≤ len(s)`.  The elements from `j` on are
moved down in place and the vacated tail is zeroed.  The first component is what the caller's
slice `s` (whose length stays `len(s)`) holds afterwards, the second is the returned slice. -/
def slicesDelete {α : Type} (zero : α) (s : List α) (i j : Nat) :
    Except Failure (List α × List α) :=
  if i ≤ j ∧ j ≤ s.length then
    .ok (s.take i ++ s.drop j ++ List.replicate (j - i) zero, s.take i ++ s.drop j)
  else .error .indexOutOfRange

/-! ## The ring -/

/-- The function `bisect(keys, key)`: `sort.Search(len(keys), func(i) { return keys[i] >= key })`. -/
def bisect (keys : List Int) (key : Int) : Except Failure Nat :=
  sortSearch keys.length (fun i =>
    match keys[i]? with
    | none => .error .indexOutOfRange
    | some k => .ok (decide (k ≥ key)))

/-- The method `c.hashFun(key)`: `Mod(SetBytes(sha256(key)), SetInt64(c.totalSlots)).Int64()`. -/
def hashFun (c : ConsistentHashing) (key : GoString) : Except Failure Int :=
  let a := bigSetBytes (sha256Sum key)
  let b := c.totalSlots
  match bigMod a b with
  | .error e => .error e
  | .ok r => .ok (bigInt64 r)

/-- The method `c.addNode(node)`: capacity guard, slot of the host, search, collision check
at `c.keys[index]`, then the two insertions at `index`. -/
def addNode (c : ConsistentHashing) (node : StorageNode) :
    Except Failure Unit × ConsistentHashing :=
  if c.currentSlots = c.totalSlots then
    (.error (.fatal "Can not increase number of nodes"), c)
  else
    match hashFun c node.host with
    | .error e => (.error e, c)
    | .ok key =>
      match bisect c.keys key with
      | .error e => (.error e, c)
      | .ok index =>
        match c.keys[index]? with
        | none => (.error .indexOutOfRange, c)
        | some k =>
          if k = key then (.error (.fatal "Collision occured"), c)
          else
            match slicesInsert c.keys index key with
            | .error e => (.error e, c)
            | .ok keys =>
              let c1 := { c with keys := keys }
              match slicesInsert c1.nodes index node with
              | .error e => (.error e, c1)
              | .ok nodes => (.ok (), { c1 with nodes := nodes })

/-- The method `c.removeNode(node)`.  Both calls of `slices.Delete` pass the range `[index, index)` and
drop the returned slice. -/
def removeNode (c : ConsistentHashing) (node : StorageNode) :
    Except Failure Int × ConsistentHashing :=
  if c.keys.length = 0 then (.error (.fatal "Hash space is empty"), c)
  else
    match hashFun c node.host with
    | .error e => (.error e, c)
    | .ok key =>
      match bisect c.keys key with
      | .error e => (.error e, c)
      | .ok index =>
        if index ≥ c.keys.length then (.error (.fatal "Key is invalid"), c)
        else
          match c.keys[index]? with
          | none => (.error .indexOutOfRange, c)
          | some k =>
            if k ≠ key then (.error (.fatal "Key is invalid"), c)
            else
              match slicesDelete 0 c.keys index index with
              | .error e => (.error e, c)
              | .ok (keys, _) =>
                let c1 := { c with keys := keys }
                match slicesDelete ⟨[], []⟩ c1.nodes index index with
                | .error e => (.error e, c1)
                | .ok (nodes, _) => (.ok key, { c1 with nodes := nodes })

/-- The method `c.assign(item)`: `index := bisect(c.keys, key) % int(c.currentSlots)` (run-time panic on
a zero divisor, remainder truncated toward zero), then `c.nodes[index]`. -/
def assign (c : ConsistentHashing) (item : GoString) :
    Except Failure StorageNode × ConsistentHashing :=
  match hashFun c item with
  | .error e => (.error e, c)
  | .ok key =>
    match bisect c.keys key with
    | .error e => (.error e, c)
    | .ok b =>
      if c.currentSlots = 0 then (.error .divisionByZero, c)
      else
        let index : Int := Int.tmod (b : Int) c.currentSlots
        if index < 0 then (.error .indexOutOfRange, c)
        else
          match c.nodes[index.toNat]? with
          | none => (.error .indexOutOfRange, c)
          | some node => (.ok node, c)

/-- The ring invariant on slots: strictly increasing (hence pairwise distinct). -/
def StrictlyIncreasing (keys : List Int) : Prop := keys.Pairwise (· < ·)

instance (keys : List Int) : Decidable (StrictlyIncreasing keys) := by
  unfold StrictlyIncreasing; infer_instance

/-! ## Sorted insertion and call sequences -/

/-- The built-in `copy(dst, src)`: the first `min(len(dst), len(src))` elements of `dst` are
replaced by those of `src` (the contents of `src` are read as they were before the call, also
when the two slices overlap).  The result is what `dst` holds afterwards. -/
def goCopy {α : Type} (dst src : List α) : List α :=
  src.take (min dst.length src.length) ++ dst.drop (min dst.length src.length)

/-- The function `insertSorted(s, ele)`: `s = append(s, ele)`, then
`i := sort.Search(len(s), func(i) { return s[i] > ele })`, `copy(s[i+1:], s[i:])` and
`s[i] = ele`.  The slice expression `s[i+1:]` panics when `i + 1 > len(s)`, the assignment
`s[i] = ele` when `i ≥ len(s)`. -/
def insertSorted (s : List Int) (ele : Int) : Except Failure (List Int) :=
  let s1 := s ++ [ele]
  match sortSearch s1.length (fun i =>
      match s1[i]? with
      | none => .error .indexOutOfRange
      | some v => .ok (decide (v > ele))) with
  | .error e => .error e
  | .ok i =>
    if i + 1 ≤ s1.length then
      let s2 := s1.take (i + 1) ++ goCopy (s1.drop (i + 1)) (s1.drop i)
      if i < s2.length then .ok (s2.set i ele) else .error .indexOutOfRange
    else .error .indexOutOfRange

/-- A call of one of the two mutating methods of the ring. -/
inductive Op where
  | add (node : StorageNode)
  | remove (node : StorageNode)
deriving DecidableEq, Repr

/-- The ring after one call, whether the call returned or stopped. -/
def step (c : ConsistentHashing) : Op → ConsistentHashing
  | .add node => (addNode c node).2
  | .remove node => (removeNode c node).2

/-- The ring after a finite sequence of calls, applied from left to right. -/
def run (c : ConsistentHashing) (ops : List Op) : ConsistentHashing := ops.foldl step c

/-! ## Example data

Hosts and items are chosen by their SHA-256 residues modulo 1000:
`node-1023 ↦ 100`, `node-683 ↦ 400`, `node-106 ↦ 700`, `node-4351 ↦ 250`,
`node-791 ↦ 900`, `node-317 ↦ 500`,
`file-166 ↦ 300`, `file-28 ↦ 500`, `file-2161 ↦ 900`, `Hello world! ↦ 842`. -/

/-- Node `X`, whose host hashes to slot 100 modulo 1000. -/
def nodeX : StorageNode := { name := str "X", host := str "node-1023" }

/-- Node `Y`, whose host hashes to slot 400 modulo 1000. -/
def nodeY : StorageNode := { name := str "Y", host := str "node-683" }

/-- Node `Z`, whose host hashes to slot 700 modulo 1000. -/
def nodeZ : StorageNode := { name := str "Z", host := str "node-106" }

/-- Node `W`, whose host hashes to slot 250 modulo 1000. -/
def nodeW : StorageNode := { name := str "W", host := str "node-4351" }

/-- Node `V`, whose host hashes to slot 900 modulo 1000. -/
def nodeV : StorageNode := { name := str "V", host := str "node-791" }

/-- Node `U`, whose host hashes to slot 500 modulo 1000. -/
def nodeU : StorageNode := { name := str "U", host := str "node-317" }

/-- The ring `100 → X, 400 → Y, 700 → Z` with modulus 1000 and the counter at 3. -/
def ringXYZ : ConsistentHashing :=
  { totalSlots := 1000, currentSlots := 3, keys := [100, 400, 700],
    nodes := [nodeX, nodeY, nodeZ] }

/-- The ring `ringXYZ` with `250 → W` inserted by `addNode`: the counter is still 3. -/
def ringXWYZ : ConsistentHashing :=
  { totalSlots := 1000, currentSlots := 3, keys := [100, 250, 400, 700],
    nodes := [nodeX, nodeW, nodeY, nodeZ] }

/-! ## Binary search -/

/-- Loop invariant of `sort.Search`: when the predicate is defined and monotone on `[0, n)`,
the loop, given fuel for `j - i` iterations, returns the boundary between the indices where
the predicate is false and those where it is true. -/
theorem sortSearchLoop_spec (f : Nat → Except Failure Bool) (p : Nat → Bool) (n : Nat)
    (hf : ∀ h, h < n → f h = .ok (p h))
    (mono : ∀ a b, a ≤ b → b < n → p a = true → p b = true) :
    ∀ fuel i j, i ≤ j → j ≤ n → j - i ≤ fuel →
      (∀ a, a < i → p a = false) → (∀ a, j ≤ a → a < n → p a = true) →
      ∃ r, sortSearchLoop f fuel i j = .ok r ∧ i ≤ r ∧ r ≤ j ∧
        (∀ a, a < r → p a = false) ∧ (∀ a, r ≤ a → a < n → p a = true) := by
  intro fuel
  induction fuel with
  | zero =>
    intro i j hij hjn hfuel hlo hhi
    have hEq : i = j := by omega
    subst hEq
    refine ⟨i, ?_, le_refl _, le_refl _, hlo, hhi⟩
    unfold sortSearchLoop
    simp
  | succ fuel ih =>
    intro i j hij hjn hfuel hlo hhi
    by_cases hlt : i < j
    · have hmid1 : i ≤ (i + j) / 2 := by omega
      have hmid2 : (i + j) / 2 < j := by omega
      have hfm := hf ((i + j) / 2) (by omega)
      cases hp : p ((i + j) / 2) with
      | false =>
        obtain ⟨r, hr, h1, h2, h3, h4⟩ := ih ((i + j) / 2 + 1) j (by omega) hjn (by omega)
          (by
            intro a ha
            cases hpa : p a with
            | false => rfl
            | true =>
              have := mono a ((i + j) / 2) (by omega) (by omega) hpa
              rw [hp] at this
              exact absurd this (by simp))
          hhi
        refine ⟨r, ?_, by omega, h2, h3, h4⟩
        unfold sortSearchLoop
        simp only [hlt, if_true, hfm, hp]
        exact hr
      | true =>
        obtain ⟨r, hr, h1, h2, h3, h4⟩ := ih i ((i + j) / 2) hmid1 (by omega) (by omega) hlo
          (by
            intro a ha han
            exact mono ((i + j) / 2) a ha han hp)
        refine ⟨r, ?_, h1, by omega, h3, h4⟩
        unfold sortSearchLoop
        simp only [hlt, if_true, hfm, hp]
        exact hr
    · have hEq : i = j := by omega
      subst hEq
      refine ⟨i, ?_, le_refl _, le_refl _, hlo, hhi⟩
      unfold sortSearchLoop
      simp

/-- On a non-decreasing slice `bisect` returns: the result `r` is at most the length, every
element before `r` is smaller than `key` and every element from `r` on is at least `key`. -/
theorem bisect_spec (keys : List Int) (key : Int) (hs : keys.Pairwise (· ≤ ·)) :
    ∃ r, bisect keys key = .ok r ∧ r ≤ keys.length ∧
      (∀ a (h : a < keys.length), a < r → keys[a] < key) ∧
      (∀ a (h : a < keys.length), r ≤ a → key ≤ keys[a]) := by
  have hsorted := List.pairwise_iff_getElem.mp hs
  obtain ⟨r, hr, -, h2, h3, h4⟩ := sortSearchLoop_spec
    (fun i => match keys[i]? with
      | none => .error .indexOutOfRange
      | some k => .ok (decide (k ≥ key)))
    (fun i => decide (keys.getD i 0 ≥ key)) keys.length
    (by
      intro h hh
      simp [List.getElem?_eq_getElem hh, List.getD_eq_getElem?_getD])
    (by
      intro a b hab hb hpa
      have ha : a < keys.length := by omega
      simp only [List.getD_eq_getElem?_getD, List.getElem?_eq_getElem ha,
        List.getElem?_eq_getElem hb, Option.getD_some, decide_eq_true_eq, ge_iff_le] at hpa ⊢
      rcases Nat.eq_or_lt_of_le hab with hEq | hlt
      · subst hEq; exact hpa
      · exact le_trans hpa (hsorted a b ha hb hlt))
    keys.length 0 keys.length (Nat.zero_le _) (le_refl _) (by omega)
    (by intro a ha; omega)
    (by intro a ha han; omega)
  refine ⟨r, hr, h2, ?_, ?_⟩
  · intro a h har
    have := h3 a har
    simpa [List.getD_eq_getElem?_getD, List.getElem?_eq_getElem h] using this
  · intro a h har
    have := h4 a har h
    simpa [List.getD_eq_getElem?_getD, List.getElem?_eq_getElem h] using this

/-- A strictly increasing slice is non-decreasing. -/
theorem StrictlyIncreasing.nonDecreasing {keys : List Int} (h : StrictlyIncreasing keys) :
    keys.Pairwise (· ≤ ·) :=
  List.Pairwise.imp (fun hab => le_of_lt hab) h

/-- The least index whose element is at least `key` is what `bisect` returns. -/
theorem bisect_eq_of_least (keys : List Int) (key : Int) (hs : keys.Pairwise (· ≤ ·))
    (i : Nat) (hi : i < keys.length) (hge : key ≤ keys[i])
    (hlt : ∀ j (hj : j < keys.length), j < i → keys[j] < key) :
    bisect keys key = .ok i := by
  obtain ⟨r, hr, hrn, h1, h2⟩ := bisect_spec keys key hs
  have hri : r = i := by
    rcases Nat.lt_trichotomy r i with h | h | h
    · have := hlt r (by omega) h
      have := h2 r (by omega) (le_refl _)
      omega
    · exact h
    · have := h1 i hi h
      omega
  rw [hr, hri]

/-- When every element is smaller than `key`, `bisect` returns the length. -/
theorem bisect_eq_length (keys : List Int) (key : Int) (hs : keys.Pairwise (· ≤ ·))
    (hall : ∀ k ∈ keys, k < key) : bisect keys key = .ok keys.length := by
  obtain ⟨r, hr, hrn, h1, h2⟩ := bisect_spec keys key hs
  have hri : r = keys.length := by
    rcases Nat.lt_or_ge r keys.length with h | h
    · have := h2 r h (le_refl _)
      have := hall keys[r] (List.getElem_mem h)
      omega
    · omega
  rw [hr, hri]

/-- In a strictly increasing slice, `bisect` finds the index of a slot that is present. -/
theorem bisect_of_mem (keys : List Int) (k : Int) (hs : StrictlyIncreasing keys)
    (hk : k ∈ keys) : ∃ i, ∃ hi : i < keys.length, keys[i] = k ∧ bisect keys k = .ok i := by
  obtain ⟨i, hi, hik⟩ := List.getElem_of_mem hk
  refine ⟨i, hi, hik, ?_⟩
  have hsorted := List.pairwise_iff_getElem.mp hs
  exact bisect_eq_of_least keys k hs.nonDecreasing i hi (by omega)
    (fun j hj hji => by have := hsorted j i hj hi hji; omega)

/-- For a slot that is absent, `bisect` returns an index that is past the end or holds
another slot. -/
theorem bisect_of_not_mem (keys : List Int) (k : Int) (hs : StrictlyIncreasing keys)
    (hk : k ∉ keys) : ∃ r, bisect keys k = .ok r ∧ keys[r]? ≠ some k := by
  obtain ⟨r, hr, -, -, -⟩ := bisect_spec keys k hs.nonDecreasing
  refine ⟨r, hr, ?_⟩
  intro h
  exact hk (List.getElem?_mem h)

/-! ## Library facts used by the ring -/

theorem slicesDelete_empty_range {α : Type} (zero : α) (s : List α) (i : Nat)
    (hi : i ≤ s.length) : slicesDelete zero s i i = .ok (s, s) := by
  unfold slicesDelete
  simp [hi]

theorem slicesDelete_out_of_range {α : Type} (zero : α) (s : List α) (i : Nat)
    (hi : s.length < i) : slicesDelete zero s i i = .error .indexOutOfRange := by
  unfold slicesDelete
  simp
  omega

/-- The conversion `Int64()` is the identity on values that fit in an `int64` and are not negative. -/
theorem bigInt64_eq_self (x : Int) (h0 : 0 ≤ x) (h1 : x < 2 ^ 63) : bigInt64 x = x := by
  have hlow : ((x.natAbs % 2 ^ 64 : Nat) : Int) = x := by
    have hlt : x.natAbs < 2 ^ 64 := by omega
    rw [Nat.mod_eq_of_lt hlt]
    omega
  unfold bigInt64
  simp only [hlow]
  simp [not_lt.mpr h0]
  omega

/-- The method `hashFun` returns exactly when the modulus is not zero. -/
theorem hashFun_ok_iff (c : ConsistentHashing) (key : GoString) :
    (∃ h, hashFun c key = .ok h) ↔ c.totalSlots ≠ 0 := by
  unfold hashFun bigMod
  by_cases h0 : c.totalSlots = 0 <;> simp [h0]

/-! ## Lookup -/

/-- How `assign` continues once the slot `h` of the item and the search result `b` are known
and the counter is not zero. -/
theorem assign_of_bisect (c : ConsistentHashing) (item : GoString) (h : Int) (b : Nat)
    (hh : hashFun c item = .ok h) (hb : bisect c.keys h = .ok b)
    (hcur : c.currentSlots ≠ 0) :
    assign c item =
      (if Int.tmod (b : Int) c.currentSlots < 0 then (.error .indexOutOfRange, c)
       else match c.nodes[(Int.tmod (b : Int) c.currentSlots).toNat]? with
        | none => (.error .indexOutOfRange, c)
        | some node => (.ok node, c)) := by
  unfold assign
  simp only [hh, hb, hcur, if_false]

/-- Whatever the outcome, `removeNode` leaves the ring as it found it. -/
theorem removeNode_state (c : ConsistentHashing) (node : StorageNode) :
    (removeNode c node).2 = c := by
  unfold removeNode
  split
  · rfl
  · split
    · rfl
    · split
      · rfl
      · rename_i index hindex
        split
        · rfl
        · rename_i hlt
          split
          · rfl
          · split
            · rfl
            · rw [slicesDelete_empty_range 0 c.keys index (by omega)]
              simp only
              rcases Nat.lt_or_ge c.nodes.length index with h | h
              · rw [slicesDelete_out_of_range _ c.nodes index h]
              · rw [slicesDelete_empty_range _ c.nodes index h]

/-! ## The claims -/

/-- C1: successor lookup with wrap-around.  In a ring whose keys are strictly increasing,
whose `nodes` slice has the same length `n ≥ 1` as `keys` and whose counter `currentSlots`
equals `n`, for an item whose slot is `h = hashFun(item)`: `assign(item)` returns a node and
leaves the ring as it is; it returns `nodes[i]` for the least index `i` with `keys[i] ≥ h`
(an exact match included), and `nodes[0]` when every key is smaller than `h`. -/
theorem assign_successor_wraparound (c : ConsistentHashing) (item : GoString) (h : Int)
    (hkeys : StrictlyIncreasing c.keys)
    (hlen : c.nodes.length = c.keys.length) (hn : 1 ≤ c.keys.length)
    (hcur : c.currentSlots = c.keys.length)
    (hh : hashFun c item = .ok h) :
    (∃ node, assign c item = (.ok node, c)) ∧
    (∀ i (hi : i < c.keys.length), h ≤ c.keys[i] →
        (∀ j (hj : j < c.keys.length), j < i → c.keys[j] < h) →
        ∃ node, c.nodes[i]? = some node ∧ assign c item = (.ok node, c)) ∧
    ((∀ k ∈ c.keys, k < h) →
        ∃ node, c.nodes[0]? = some node ∧ assign c item = (.ok node, c)) := by
  have hcur0 : c.currentSlots ≠ 0 := by
    rw [hcur]; exact_mod_cast (by omega : c.keys.length ≠ 0)
  have hA : ∀ i (hi : i < c.keys.length), h ≤ c.keys[i] →
        (∀ j (hj : j < c.keys.length), j < i → c.keys[j] < h) →
        ∃ node, c.nodes[i]? = some node ∧ assign c item = (.ok node, c) := by
    intro i hi hge hlt
    have hb := bisect_eq_of_least c.keys h hkeys.nonDecreasing i hi hge hlt
    have hin : i < c.nodes.length := by omega
    refine ⟨c.nodes[i], List.getElem?_eq_getElem hin, ?_⟩
    rw [assign_of_bisect c item h i hh hb hcur0, hcur]
    have hmod : Int.tmod (i : Int) (c.keys.length : Int) = (i : Int) :=
      Int.tmod_eq_of_lt (by omega) (by exact_mod_cast hi)
    rw [hmod]
    simp [List.getElem?_eq_getElem hin]
  have hB : (∀ k ∈ c.keys, k < h) →
        ∃ node, c.nodes[0]? = some node ∧ assign c item = (.ok node, c) := by
    intro hall
    have hb := bisect_eq_length c.keys h hkeys.nonDecreasing hall
    have hin : 0 < c.nodes.length := by omega
    refine ⟨c.nodes[0], List.getElem?_eq_getElem hin, ?_⟩
    rw [assign_of_bisect c item h c.keys.length hh hb hcur0, hcur]
    have hmod : Int.tmod (c.keys.length : Int) (c.keys.length : Int) = 0 := by
      rw [← Int.ofNat_tmod]; simp
    rw [hmod]
    simp [List.getElem?_eq_getElem hin]
  refine ⟨?_, hA, hB⟩
  obtain ⟨r, hr, hrn, h1, h2⟩ := bisect_spec c.keys h hkeys.nonDecreasing
  rcases Nat.lt_or_ge r c.keys.length with hlt | hge
  · obtain ⟨node, -, hnode⟩ := hA r hlt (h2 r hlt (le_refl _)) (fun j hj hjr => h1 j hj hjr)
    exact ⟨node, hnode⟩
  · have hall : ∀ k ∈ c.keys, k < h := by
      intro k hk
      obtain ⟨a, ha, rfl⟩ := List.getElem_of_mem hk
      exact h1 a ha (by omega)
    obtain ⟨node, -, hnode⟩ := hB hall
    exact ⟨node, hnode⟩

/-- Witness for C1: in the ring `100 → X, 400 → Y, 700 → Z` with modulus 1000 the item
`file-2161` hashes to slot 900 and is assigned the first node `X`. -/
theorem assign_successor_wraparound_witness :
    hashFun ringXYZ (str "file-2161") = .ok 900 ∧
    assign ringXYZ (str "file-2161") = (.ok nodeX, ringXYZ) := by
  have hh : hashFun ringXYZ (str "file-2161") = .ok 900 := by decide
  refine ⟨hh, ?_⟩
  obtain ⟨node, h0, hnode⟩ := (assign_successor_wraparound ringXYZ (str "file-2161") 900
    (by decide) (by decide) (by decide) (by decide) hh).2.2 (by decide)
  have hX : node = nodeX := by
    have h1 : ringXYZ.nodes[0]? = some nodeX := by decide
    rw [h1] at h0
    exact (Option.some.inj h0).symm
  rw [hnode, hX]

/-- C2, evaluated at the failing input: in the ring `100 → X, 400 → Y, 700 → Z` (modulus
1000, counter 3) the item `file-166` (slot 300) is assigned `Y`; `removeNode(Y)` returns
slot 400 and leaves the ring as it was, so the item is still assigned `Y` and not `Z`. -/
theorem removeNode_does_not_remap :
    assign ringXYZ (str "file-166") = (.ok nodeY, ringXYZ) ∧
    removeNode ringXYZ nodeY = (.ok 400, ringXYZ) ∧
    assign (removeNode ringXYZ nodeY).2 (str "file-166") = (.ok nodeY, ringXYZ) := by
  decide

/-- C3, evaluated at the failing input: in the ring `100 → X, 400 → Y, 700 → Z` (modulus
1000, counter 3) the item `file-28` (slot 500) is assigned `Z`; `addNode(W)` with `W` at
slot 250 succeeds and leaves the counter at 3; afterwards the item is assigned `X`. -/
theorem addNode_remaps_unrelated_item :
    assign ringXYZ (str "file-28") = (.ok nodeZ, ringXYZ) ∧
    addNode ringXYZ nodeW = (.ok (), ringXWYZ) ∧
    assign ringXWYZ (str "file-28") = (.ok nodeX, ringXWYZ) := by
  decide

/-- C4, evaluated at the failing input: `removeNode(Y)` on the ring
`100 → X, 400 → Y, 700 → Z` returns slot 400 and leaves all three keys and all three nodes
in place. -/
theorem removeNode_deletes_nothing :
    (removeNode ringXYZ nodeY).1 = .ok 400 ∧
    (removeNode ringXYZ nodeY).2.keys = [100, 400, 700] ∧
    (removeNode ringXYZ nodeY).2.nodes = [nodeX, nodeY, nodeZ] := by
  decide

/-- C5, evaluated at the failing input: the first `addNode` on the ring returned by
`NewConsistentHashing(1000)` stops with an index-out-of-range panic at `c.keys[index]`, and
the ring is still empty. -/
theorem addNode_first_insert_panics :
    addNode (NewConsistentHashing 1000) nodeX
      = (.error .indexOutOfRange, NewConsistentHashing 1000) := by
  decide

/-- C6: collision rejection.  In a ring with strictly increasing keys, when the slot
`hashFun(node.host)` already occurs in `keys`, `addNode(node)` stops with a fatal error and
the ring (keys, nodes, counters) is unchanged; unless the capacity guard fires first, the
error is the collision error. -/
theorem addNode_collision_rejected (c : ConsistentHashing) (node : StorageNode) (k : Int)
    (hkeys : StrictlyIncreasing c.keys)
    (hh : hashFun c node.host = .ok k) (hk : k ∈ c.keys) :
    (∃ msg, addNode c node = (.error (.fatal msg), c)) ∧
    (c.currentSlots ≠ c.totalSlots →
      addNode c node = (.error (.fatal "Collision occured"), c)) := by
  obtain ⟨i, hi, hik, hb⟩ := bisect_of_mem c.keys k hkeys hk
  have hcol : c.currentSlots ≠ c.totalSlots →
      addNode c node = (.error (.fatal "Collision occured"), c) := by
    intro hne
    unfold addNode
    simp only [hne, if_false, hh, hb, List.getElem?_eq_getElem hi, hik, if_true]
  refine ⟨?_, hcol⟩
  by_cases hfull : c.currentSlots = c.totalSlots
  · refine ⟨"Can not increase number of nodes", ?_⟩
    unfold addNode
    simp only [hfull, if_true]
  · exact ⟨_, hcol hfull⟩

/-- Witness for C6: node `Y` hashes to slot 400, which the ring `100 → X, 400 → Y, 700 → Z`
already holds; `addNode(Y)` reports the collision and the ring is unchanged. -/
theorem addNode_collision_rejected_witness :
    hashFun ringXYZ nodeY.host = .ok 400 ∧
    addNode ringXYZ nodeY = (.error (.fatal "Collision occured"), ringXYZ) := by
  have hh : hashFun ringXYZ nodeY.host = .ok 400 := by decide
  exact ⟨hh, (addNode_collision_rejected ringXYZ nodeY 400 (by decide) hh (by decide)).2
    (by decide)⟩

/-- C7, evaluated at the failing input: on the ring `100 → X, 400 → Y, 700 → Z`,
`addNode(W)` inserts `250 → W`, and the `removeNode(W)` that follows returns slot 250 and
leaves the four-entry ring in place, so the keys and nodes differ from those before the
insert. -/
theorem addNode_then_removeNode_keeps_entry :
    addNode ringXYZ nodeW = (.ok (), ringXWYZ) ∧
    removeNode (addNode ringXYZ nodeW).2 nodeW = (.ok 250, ringXWYZ) ∧
    ringXWYZ.keys ≠ ringXYZ.keys ∧ ringXWYZ.nodes ≠ ringXYZ.nodes := by
  decide

/-- C8: removal fails exactly when the slot is absent.  In a ring with strictly increasing
keys, `keys` and `nodes` being parallel slices (the proof uses only that `nodes` is at least
as long as `keys`), `removeNode(node)` fails if and only if `hashFun(node.host)` does not
occur in `keys` (which includes the empty ring and a modulus for which `hashFun` has no
value), and when it fails the ring is left unchanged. -/
theorem removeNode_fails_iff_absent (c : ConsistentHashing) (node : StorageNode)
    (hkeys : StrictlyIncreasing c.keys) (hlen : c.keys.length ≤ c.nodes.length) :
    ((∃ e, (removeNode c node).1 = .error e) ↔
      ¬ ∃ k, hashFun c node.host = .ok k ∧ k ∈ c.keys) ∧
    (∀ e, (removeNode c node).1 = .error e → (removeNode c node).2 = c) := by
  constructor
  · constructor
    · rintro ⟨e, he⟩ ⟨k, hh, hk⟩
      obtain ⟨i, hi, hik, hb⟩ := bisect_of_mem c.keys k hkeys hk
      have hne : c.keys.length ≠ 0 := by omega
      have hge : ¬ (i ≥ c.keys.length) := by omega
      have hok : removeNode c node = (.ok k, c) := by
        unfold removeNode
        simp only [hne, if_false, hh, hb, hge, List.getElem?_eq_getElem hi, hik,
          ne_eq, not_true_eq_false,
          slicesDelete_empty_range (0 : Int) c.keys i (by omega),
          slicesDelete_empty_range (⟨[], []⟩ : StorageNode) c.nodes i (by omega)]
      rw [hok] at he
      exact absurd he (by simp)
    · intro habs
      by_cases hempty : c.keys.length = 0
      · refine ⟨.fatal "Hash space is empty", ?_⟩
        unfold removeNode
        simp only [hempty, if_true]
      · cases hh : hashFun c node.host with
        | error e =>
          refine ⟨e, ?_⟩
          unfold removeNode
          simp only [hempty, if_false, hh]
        | ok k =>
          have hk : k ∉ c.keys := fun hk => habs ⟨k, hh, hk⟩
          obtain ⟨r, hb, hr⟩ := bisect_of_not_mem c.keys k hkeys hk
          refine ⟨.fatal "Key is invalid", ?_⟩
          unfold removeNode
          simp only [hempty, if_false, hh, hb]
          by_cases hge : r ≥ c.keys.length
          · simp only [hge, if_true]
          · have hlt : r < c.keys.length := by omega
            have hne : c.keys[r] ≠ k := by
              intro h
              exact hr (by rw [List.getElem?_eq_getElem hlt, h])
            simp only [hge, if_false, List.getElem?_eq_getElem hlt, ne_eq, hne,
              not_false_eq_true, if_true]
  · intro e _
    exact removeNode_state c node

/-- Witness for C8: node `W` hashes to slot 250, which the ring
`100 → X, 400 → Y, 700 → Z` does not hold; `removeNode(W)` fails and the ring is unchanged. -/
theorem removeNode_fails_iff_absent_witness :
    (¬ ∃ k, hashFun ringXYZ nodeW.host = .ok k ∧ k ∈ ringXYZ.keys) ∧
    (∃ e, (removeNode ringXYZ nodeW).1 = .error e) ∧ (removeNode ringXYZ nodeW).2 = ringXYZ := by
  have hW : hashFun ringXYZ nodeW.host = .ok 250 := by decide
  have habs : ¬ ∃ k, hashFun ringXYZ nodeW.host = .ok k ∧ k ∈ ringXYZ.keys := by
    rintro ⟨k, hk, hmem⟩
    rw [hW] at hk
    have hk250 : (250 : Int) = k := Except.ok.inj hk
    subst hk250
    exact absurd hmem (by decide)
  have hthm := removeNode_fails_iff_absent ringXYZ nodeW (by decide) (by decide)
  obtain ⟨e, he⟩ := hthm.1.mpr habs
  exact ⟨habs, ⟨e, he⟩, hthm.2 e he⟩

/-- C9: empty-ring behaviour.  On a ring with no keys and no nodes, whatever `totalSlots` and
`currentSlots` are, `assign(item)` and `removeNode(node)` both stop with an error instead of
returning a value, and the ring is unchanged. -/
theorem empty_ring_operations_fail (c : ConsistentHashing) (item : GoString)
    (node : StorageNode) (hk : c.keys = []) (hn : c.nodes = []) :
    (∃ e, assign c item = (.error e, c)) ∧
    removeNode c node = (.error (.fatal "Hash space is empty"), c) := by
  constructor
  · unfold assign
    cases hh : hashFun c item with
    | error e => exact ⟨e, rfl⟩
    | ok key =>
      have hb : bisect c.keys key = .ok 0 := by
        rw [hk]; rfl
      simp only [hb]
      by_cases hcur : c.currentSlots = 0
      · exact ⟨.divisionByZero, by simp only [hcur, if_true]⟩
      · refine ⟨.indexOutOfRange, ?_⟩
        simp [hcur, hn]
  · unfold removeNode
    simp [hk]

/-- Witness for C9: on the ring returned by `NewConsistentHashing(1000)` both `assign` and
`removeNode` fail and the ring stays empty. -/
theorem empty_ring_operations_fail_witness :
    (∃ e, assign (NewConsistentHashing 1000) (str "file-28")
      = (.error e, NewConsistentHashing 1000)) ∧
    removeNode (NewConsistentHashing 1000) nodeX
      = (.error (.fatal "Hash space is empty"), NewConsistentHashing 1000) :=
  empty_ring_operations_fail (NewConsistentHashing 1000) (str "file-28") nodeX rfl rfl

/-- C10: hash range and exactness.  For a modulus `M = totalSlots` with `0 < M` (an `int64`,
so `M < 2^63`), `hashFun(key)` returns the SHA-256 digest of `key`, read as a big-endian
unsigned integer, reduced modulo `M` with nothing lost in the conversion to `int64`; the
slot lies in `[0, M)`; and two rings with the same modulus give the same slot. -/
theorem hashFun_range_exact (c : ConsistentHashing) (key : GoString)
    (hpos : 0 < c.totalSlots) (h64 : c.totalSlots < 2 ^ 63) :
    hashFun c key = .ok ((bigEndian (sha256Sum key) : Int) % c.totalSlots) ∧
    0 ≤ (bigEndian (sha256Sum key) : Int) % c.totalSlots ∧
    (bigEndian (sha256Sum key) : Int) % c.totalSlots < c.totalSlots ∧
    (∀ c2 : ConsistentHashing, c2.totalSlots = c.totalSlots →
      hashFun c2 key = hashFun c key) := by
  have hne : c.totalSlots ≠ 0 := by omega
  have h0 : 0 ≤ (bigEndian (sha256Sum key) : Int) % c.totalSlots := Int.emod_nonneg _ hne
  have h1 : (bigEndian (sha256Sum key) : Int) % c.totalSlots < c.totalSlots :=
    Int.emod_lt_of_pos _ hpos
  refine ⟨?_, h0, h1, ?_⟩
  · unfold hashFun bigMod bigSetBytes
    simp only [hne, if_false]
    rw [bigInt64_eq_self _ h0 (by omega)]
  · intro c2 h2
    unfold hashFun
    rw [h2]

/-- Witness for C10: with modulus 1000 the key `Hello world!` hashes to its digest modulo
1000, which is 842. -/
theorem hashFun_range_exact_witness :
    (0 : Int) < ringXYZ.totalSlots ∧ ringXYZ.totalSlots < 2 ^ 63 ∧
    hashFun ringXYZ (str "Hello world!") = .ok 842 := by
  refine ⟨by decide, by decide, ?_⟩
  have hval : (bigEndian (sha256Sum (str "Hello world!")) : Int) % ringXYZ.totalSlots = 842 := by
    decide
  rw [(hashFun_range_exact ringXYZ (str "Hello world!") (by decide) (by decide)).1, hval]

/-! ## Insertion -/

/-- What a successful `addNode` has done: the guard did not fire, the slot `k` of the host was
searched, the index `i` found holds another slot, and `k` and `node` were inserted at `i`. -/
theorem addNode_ok (c : ConsistentHashing) (node : StorageNode) (c2 : ConsistentHashing)
    (h : addNode c node = (.ok (), c2)) :
    ∃ k i, c.currentSlots ≠ c.totalSlots ∧ hashFun c node.host = .ok k ∧
      bisect c.keys k = .ok i ∧ (∃ hi : i < c.keys.length, c.keys[i] ≠ k) ∧
      i ≤ c.nodes.length ∧
      c2 = { c with keys := c.keys.take i ++ k :: c.keys.drop i,
                    nodes := c.nodes.take i ++ node :: c.nodes.drop i } := by
  unfold addNode at h
  split at h
  · simp at h
  · rename_i hguard
    split at h
    · simp at h
    · rename_i key hkey
      split at h
      · simp at h
      · rename_i index hidx
        split at h
        · simp at h
        · rename_i k0 hk0
          split at h
          · simp at h
          · rename_i hne
            obtain ⟨hi, hik⟩ := List.getElem?_eq_some.mp hk0
            have hle : index ≤ c.keys.length := by omega
            simp only [slicesInsert, hle, if_true] at h
            by_cases hn : index ≤ c.nodes.length
            · simp only [hn, if_true, Prod.mk.injEq, true_and] at h
              refine ⟨key, index, hguard, hkey, hidx, ⟨hi, ?_⟩, hn, h.symm⟩
              rw [hik]; exact hne
            · simp [hn] at h

/-- Inserting `k` into a strictly increasing slice at the index that `bisect` returns for a
slot that is absent keeps the slice strictly increasing. -/
theorem insert_at_bisect_sorted (keys : List Int) (k : Int) (i : Nat)
    (hs : StrictlyIncreasing keys) (hb : bisect keys k = .ok i)
    (hi : i < keys.length) (hne : keys[i] ≠ k) :
    StrictlyIncreasing (keys.take i ++ k :: keys.drop i) := by
  obtain ⟨r, hr, -, h1, h2⟩ := bisect_spec keys k hs.nonDecreasing
  have hri : r = i := by rw [hr] at hb; exact Except.ok.inj hb
  subst hri
  have hsorted := List.pairwise_iff_getElem.mp hs
  have hbefore : ∀ x ∈ keys.take r, x < k := by
    intro x hx
    obtain ⟨a, ha, rfl⟩ := List.mem_take_iff_getElem.mp hx
    exact h1 a (by omega) (by omega)
  have hafter : ∀ x ∈ keys.drop r, k < x := by
    intro x hx
    obtain ⟨a, ha, rfl⟩ := List.mem_drop_iff_getElem.mp hx
    have hge := h2 r hi (le_refl _)
    have hgt : k < keys[r] := lt_of_le_of_ne hge (Ne.symm hne)
    rcases Nat.eq_zero_or_pos a with h0 | hpos
    · subst h0; simpa using hgt
    · have := hsorted r (r + a) hi (by omega) (by omega)
      omega
  have hsplit : keys.take r ++ keys.drop r = keys := List.take_append_drop r keys
  have hparts : StrictlyIncreasing (keys.take r ++ keys.drop r) := by rw [hsplit]; exact hs
  unfold StrictlyIncreasing at hparts ⊢
  rw [List.pairwise_append] at hparts ⊢
  obtain ⟨hp1, hp2, hp3⟩ := hparts
  refine ⟨hp1, ?_, ?_⟩
  · rw [List.pairwise_cons]
    exact ⟨hafter, hp2⟩
  · intro a ha b hb'
    rcases List.mem_cons.mp hb' with hbk | hbd
    · subst hbk; exact hbefore a ha
    · exact hp3 a ha b hbd

/-- Erasing the element just inserted at index `i` gives the slice back. -/
theorem eraseIdx_insert {α : Type} (l : List α) (i : Nat) (v : α) (hi : i ≤ l.length) :
    (l.take i ++ v :: l.drop i).eraseIdx i = l := by
  have hlen : (l.take i).length = i := by simp; omega
  rw [List.eraseIdx_append_of_length_le (by omega)]
  simp [hlen]

/-- The element inserted at index `i` is found at index `i`. -/
theorem getElem?_insert {α : Type} (l : List α) (i : Nat) (v : α) (hi : i ≤ l.length) :
    (l.take i ++ v :: l.drop i)[i]? = some v := by
  have hlen : (l.take i).length = i := by simp; omega
  rw [List.getElem?_append_right (by omega)]
  simp [hlen]

/-- Neither counter is written by `addNode`. -/
theorem addNode_counters (c : ConsistentHashing) (node : StorageNode) :
    (addNode c node).2.totalSlots = c.totalSlots ∧
    (addNode c node).2.currentSlots = c.currentSlots := by
  unfold addNode
  repeat' first | split | (dsimp only; split)
  all_goals exact ⟨rfl, rfl⟩

/-- On a ring without keys `addNode` stops and leaves the ring as it is. -/
theorem addNode_no_keys (c : ConsistentHashing) (node : StorageNode) (hk : c.keys = []) :
    ∃ e, addNode c node = (.error e, c) := by
  unfold addNode
  split
  · exact ⟨_, rfl⟩
  · cases hh : hashFun c node.host with
    | error e => exact ⟨e, rfl⟩
    | ok key =>
      have hb : bisect c.keys key = .ok 0 := by rw [hk]; rfl
      simp only [hb, hk]
      exact ⟨.indexOutOfRange, rfl⟩

/-- The slot of a key depends on the ring through `totalSlots` only. -/
theorem hashFun_congr (c d : ConsistentHashing) (key : GoString)
    (h : d.totalSlots = c.totalSlots) : hashFun d key = hashFun c key := by
  unfold hashFun
  rw [h]

/-- The entries of the ring after a successful `addNode`, as (slot, node) pairs: the old
entries and the new one, in increasing order of slot; the counters are as before. -/
theorem addNode_entries (c : ConsistentHashing) (node : StorageNode) (c2 : ConsistentHashing)
    (hkeys : StrictlyIncreasing c.keys) (hlen : c.nodes.length = c.keys.length)
    (hok : addNode c node = (.ok (), c2)) :
    ∃ k, hashFun c node.host = .ok k ∧ StrictlyIncreasing c2.keys ∧
      c2.nodes.length = c2.keys.length ∧
      (c2.keys.zip c2.nodes).Perm ((k, node) :: c.keys.zip c.nodes) ∧
      c2.totalSlots = c.totalSlots ∧ c2.currentSlots = c.currentSlots := by
  obtain ⟨k, i, -, hk, hb, ⟨hi, hne⟩, hin, rfl⟩ := addNode_ok c node c2 hok
  refine ⟨k, hk, insert_at_bisect_sorted c.keys k i hkeys hb hi hne, ?_, ?_, rfl, rfl⟩
  · simp; omega
  · have hz : (c.keys.take i ++ k :: c.keys.drop i).zip
          (c.nodes.take i ++ node :: c.nodes.drop i)
        = (c.keys.take i).zip (c.nodes.take i)
            ++ (k, node) :: (c.keys.drop i).zip (c.nodes.drop i) := by
      rw [List.zip_append (by simp; omega)]
      rfl
    have hz0 : c.keys.zip c.nodes
        = (c.keys.take i).zip (c.nodes.take i) ++ (c.keys.drop i).zip (c.nodes.drop i) := by
      rw [← List.zip_append (by simp; omega), List.take_append_drop, List.take_append_drop]
    show ((c.keys.take i ++ k :: c.keys.drop i).zip
      (c.nodes.take i ++ node :: c.nodes.drop i)).Perm _
    rw [hz, hz0]
    exact List.perm_middle

/-- Two rings with parallel slices, strictly increasing slots and the same entries up to
order hold the same `keys` and the same `nodes`. -/
theorem entries_determine_ring (k1 k2 : List Int) (n1 n2 : List StorageNode)
    (hs1 : StrictlyIncreasing k1) (hs2 : StrictlyIncreasing k2)
    (hl1 : n1.length = k1.length) (hl2 : n2.length = k2.length)
    (hp : (k1.zip n1).Perm (k2.zip n2)) : k1 = k2 ∧ n1 = n2 := by
  have hsorted : ∀ (ks : List Int) (ns : List StorageNode), StrictlyIncreasing ks →
      ns.length = ks.length →
      List.Sorted (fun p q : Int × StorageNode => p.1 < q.1) (ks.zip ns) := by
    intro ks ns hs hl
    have hmap : (ks.zip ns).map Prod.fst = ks := List.map_fst_zip ks ns (by omega)
    have hpw : List.Pairwise (· < ·) ((ks.zip ns).map Prod.fst) := by rw [hmap]; exact hs
    exact (List.pairwise_map.mp hpw)
  haveI : IsAntisymm (Int × StorageNode) (fun p q => p.1 < q.1) :=
    ⟨fun p q hpq hqp => absurd hpq (not_lt.mpr (le_of_lt hqp))⟩
  have hEq : k1.zip n1 = k2.zip n2 :=
    List.eq_of_perm_of_sorted hp (hsorted k1 n1 hs1 hl1) (hsorted k2 n2 hs2 hl2)
  constructor
  · have h1 := List.map_fst_zip k1 n1 (by omega)
    have h2 := List.map_fst_zip k2 n2 (by omega)
    rw [← h1, ← h2, hEq]
  · have h1 := List.map_snd_zip k1 n1 (by omega)
    have h2 := List.map_snd_zip k2 n2 (by omega)
    rw [← h1, ← h2, hEq]

/-- When the four calls return, `addNode(A)` then `addNode(B)` and `addNode(B)` then
`addNode(A)` leave the same ring. -/
theorem addNode_order_independent (c c1 c2 c3 c4 : ConsistentHashing) (A B : StorageNode)
    (hkeys : StrictlyIncreasing c.keys) (hlen : c.nodes.length = c.keys.length)
    (h1 : addNode c A = (.ok (), c1)) (h2 : addNode c1 B = (.ok (), c2))
    (h3 : addNode c B = (.ok (), c3)) (h4 : addNode c3 A = (.ok (), c4)) : c2 = c4 := by
  obtain ⟨a, ha, hs1, hl1, hp1, ht1, hc1⟩ := addNode_entries c A c1 hkeys hlen h1
  obtain ⟨b1, hb1, hs2, hl2, hp2, ht2, hc2⟩ := addNode_entries c1 B c2 hs1 hl1 h2
  obtain ⟨b, hb, hs3, hl3, hp3, ht3, hc3⟩ := addNode_entries c B c3 hkeys hlen h3
  obtain ⟨a1, ha1, hs4, hl4, hp4, ht4, hc4⟩ := addNode_entries c3 A c4 hs3 hl3 h4
  have hbb : b1 = b := by
    rw [hashFun_congr c c1 B.host ht1, hb] at hb1
    exact (Except.ok.inj hb1).symm
  have haa : a1 = a := by
    rw [hashFun_congr c c3 A.host ht3, ha] at ha1
    exact (Except.ok.inj ha1).symm
  subst hbb haa
  have hperm : (c2.keys.zip c2.nodes).Perm (c4.keys.zip c4.nodes) := by
    refine hp2.trans (((hp1.cons _).trans ?_).trans hp4.symm)
    exact (List.Perm.swap _ _ _).trans ((hp3.symm).cons _)
  obtain ⟨hk, hn⟩ := entries_determine_ring c2.keys c4.keys c2.nodes c4.nodes hs2 hs4 hl2 hl4 hperm
  cases c2
  cases c4
  simp only [ConsistentHashing.mk.injEq]
  simp only at hk hn ht2 ht4 hc2 hc4
  exact ⟨by rw [ht2, ht4, ht1, ht3], by rw [hc2, hc4, hc1, hc3], hk, hn⟩

/-! ## Two insertions -/

/-- On a non-decreasing slice, `bisect` returns the number of elements smaller than `key`. -/
theorem bisect_eq_countP (keys : List Int) (key : Int) (hs : keys.Pairwise (· ≤ ·)) :
    bisect keys key = .ok (keys.countP (fun x => decide (x < key))) := by
  obtain ⟨r, hr, hrn, h1, h2⟩ := bisect_spec keys key hs
  have htake : (keys.take r).countP (fun x => decide (x < key)) = r := by
    have hall : ∀ x ∈ keys.take r, (fun x => decide (x < key)) x = true := by
      intro x hx
      obtain ⟨a, ha, rfl⟩ := List.mem_take_iff_getElem.mp hx
      simpa using h1 a (by omega) (by omega)
    rw [List.countP_eq_length.mpr hall]
    simp; omega
  have hdrop : (keys.drop r).countP (fun x => decide (x < key)) = 0 := by
    rw [List.countP_eq_zero]
    intro x hx
    obtain ⟨a, ha, rfl⟩ := List.mem_drop_iff_getElem.mp hx
    have := h2 (r + a) (by omega) (by omega)
    simpa using this
  have hsplit : keys.countP (fun x => decide (x < key))
      = (keys.take r).countP (fun x => decide (x < key))
        + (keys.drop r).countP (fun x => decide (x < key)) := by
    rw [← List.countP_append, List.take_append_drop]
  rw [hr, hsplit, htake, hdrop]
  rfl

/-- The number of elements smaller than `key` after inserting `v` anywhere. -/
theorem countP_insert (l : List Int) (i : Nat) (v key : Int) :
    (l.take i ++ v :: l.drop i).countP (fun x => decide (x < key))
      = l.countP (fun x => decide (x < key)) + (if v < key then 1 else 0) := by
  have hsplit : l.countP (fun x => decide (x < key))
      = (l.take i).countP (fun x => decide (x < key))
        + (l.drop i).countP (fun x => decide (x < key)) := by
    rw [← List.countP_append, List.take_append_drop]
  rw [List.countP_append, List.countP_cons, hsplit]
  simp only [decide_eq_true_eq]
  omega

/-- Inserting at the end of a prefix. -/
theorem insert_append {α : Type} (l1 l2 : List α) (v : α) :
    (l1 ++ l2).take l1.length ++ v :: (l1 ++ l2).drop l1.length = l1 ++ v :: l2 := by
  rw [List.take_left, List.drop_left]

/-- Two insertions commute: inserting `x` at `i` and then `y` at `j + 1` gives the same slice
as inserting `y` at `j` and then `x` at `i`, for `i ≤ j ≤ len(l)`. -/
theorem insert_insert_comm {α : Type} (l : List α) (i j : Nat) (x y : α)
    (hij : i ≤ j) (hj : j ≤ l.length) :
    (l.take i ++ x :: l.drop i).take (j + 1) ++ y :: (l.take i ++ x :: l.drop i).drop (j + 1)
      = (l.take j ++ y :: l.drop j).take i ++ x :: (l.take j ++ y :: l.drop j).drop i := by
  -- split `l` as `l1 ++ l2 ++ l3` with `len(l1) = i` and `len(l1 ++ l2) = j`
  obtain ⟨l1, l2, l3, rfl, h1, h2⟩ : ∃ l1 l2 l3 : List α,
      l = l1 ++ (l2 ++ l3) ∧ l1.length = i ∧ l2.length = j - i := by
    refine ⟨l.take i, (l.drop i).take (j - i), (l.drop i).drop (j - i), ?_, ?_, ?_⟩
    · rw [List.take_append_drop, List.take_append_drop]
    · simp; omega
    · simp; omega
  have e1 : (l1 ++ (l2 ++ l3)).take i ++ x :: (l1 ++ (l2 ++ l3)).drop i
      = (l1 ++ x :: l2) ++ l3 := by
    rw [← h1, insert_append]; simp
  have e2 : (l1 ++ (l2 ++ l3)).take j ++ y :: (l1 ++ (l2 ++ l3)).drop j
      = l1 ++ (l2 ++ y :: l3) := by
    have hj' : j = (l1 ++ l2).length := by simp; omega
    rw [← List.append_assoc, hj', insert_append]; simp
  have hlen1 : j + 1 = (l1 ++ x :: l2).length := by simp; omega
  rw [e1, e2, hlen1, insert_append, ← h1, insert_append]
  simp

/-- The capacity guard stops `addNode` before anything is looked at. -/
theorem addNode_guard (c : ConsistentHashing) (node : StorageNode)
    (hfull : c.currentSlots = c.totalSlots) :
    addNode c node = (.error (.fatal "Can not increase number of nodes"), c) := by
  unfold addNode
  simp only [hfull, if_true]


/-- The number of keys smaller than an absent slot is below the number of keys exactly when
some key is larger than the slot. -/
theorem countP_lt_length_iff (keys : List Int) (k : Int) :
    keys.countP (fun x => decide (x < k)) < keys.length ↔ ∃ x ∈ keys, ¬ x < k := by
  constructor
  · intro h
    by_contra hne
    have hall : ∀ x ∈ keys, (fun x => decide (x < k)) x = true := by
      intro x hx
      by_contra hx2
      exact hne ⟨x, hx, by simpa using hx2⟩
    rw [List.countP_eq_length.mpr hall] at h
    omega
  · rintro ⟨x, hx, hxk⟩
    have hle := List.countP_le_length (fun x => decide (x < k)) (l := keys)
    rcases Nat.lt_or_ge (keys.countP (fun x => decide (x < k))) keys.length with h | h
    · exact h
    · have hEq : keys.countP (fun x => decide (x < k)) = keys.length := by omega
      have := List.countP_eq_length.mp hEq x hx
      exact absurd (by simpa using this) hxk

/-- Evaluation of `addNode` for an absent slot `k`, with `i` the number of keys below `k`:
both insertions are made when `i < len(keys)` and `i ≤ len(nodes)`. -/
theorem addNode_eval_ok (c : ConsistentHashing) (node : StorageNode) (k : Int)
    (hkeys : StrictlyIncreasing c.keys) (hguard : c.currentSlots ≠ c.totalSlots)
    (hk : hashFun c node.host = .ok k) (habs : k ∉ c.keys)
    (i : Nat) (hidx : c.keys.countP (fun x => decide (x < k)) = i)
    (hi : i < c.keys.length) (hn : i ≤ c.nodes.length) :
    addNode c node = (.ok (),
      { c with keys := c.keys.take i ++ k :: c.keys.drop i,
               nodes := c.nodes.take i ++ node :: c.nodes.drop i }) := by
  subst hidx
  have hb := bisect_eq_countP c.keys k hkeys.nonDecreasing
  have hne : c.keys[c.keys.countP (fun x => decide (x < k))] ≠ k :=
    fun h => habs (h ▸ List.getElem_mem hi)
  unfold addNode
  simp only [hguard, if_false, hk, hb, List.getElem?_eq_getElem hi, hne, slicesInsert,
    le_of_lt hi, if_true, hn]

/-- Evaluation of `addNode` for an absent slot `k`, with `i` the number of keys below `k`:
when `i < len(keys)` but `i > len(nodes)`, the key is inserted and the second
`slices.Insert` panics. -/
theorem addNode_eval_keys_only (c : ConsistentHashing) (node : StorageNode) (k : Int)
    (hkeys : StrictlyIncreasing c.keys) (hguard : c.currentSlots ≠ c.totalSlots)
    (hk : hashFun c node.host = .ok k) (habs : k ∉ c.keys)
    (i : Nat) (hidx : c.keys.countP (fun x => decide (x < k)) = i)
    (hi : i < c.keys.length) (hn : c.nodes.length < i) :
    addNode c node = (.error .indexOutOfRange,
      { c with keys := c.keys.take i ++ k :: c.keys.drop i }) := by
  subst hidx
  have hb := bisect_eq_countP c.keys k hkeys.nonDecreasing
  have hne : c.keys[c.keys.countP (fun x => decide (x < k))] ≠ k :=
    fun h => habs (h ▸ List.getElem_mem hi)
  unfold addNode
  simp only [hguard, if_false, hk, hb, List.getElem?_eq_getElem hi, hne, slicesInsert,
    le_of_lt hi, if_true, not_le.mpr hn]

/-- Evaluation of `addNode` when no key is larger than the slot: the read `c.keys[index]`
panics and the ring is left as it was. -/
theorem addNode_eval_fail (c : ConsistentHashing) (node : StorageNode) (k : Int)
    (hkeys : StrictlyIncreasing c.keys) (hguard : c.currentSlots ≠ c.totalSlots)
    (hk : hashFun c node.host = .ok k)
    (i : Nat) (hidx : c.keys.countP (fun x => decide (x < k)) = i)
    (hi : c.keys.length ≤ i) :
    addNode c node = (.error .indexOutOfRange, c) := by
  subst hidx
  have hb := bisect_eq_countP c.keys k hkeys.nonDecreasing
  have hnone : c.keys[c.keys.countP (fun x => decide (x < k))]? = none :=
    List.getElem?_eq_none hi
  unfold addNode
  simp only [hguard, if_false, hk, hb, hnone]

/-- The keys after the insertion of an absent slot `k` at its place, as seen by the search for
another absent slot `k2`. -/
theorem keys_after_insert (keys : List Int) (k k2 : Int) (i : Nat)
    (hs : StrictlyIncreasing keys) (hidx : keys.countP (fun x => decide (x < k)) = i)
    (hi : i < keys.length) (habs : k ∉ keys) (h2abs : k2 ∉ keys) (hne : k2 ≠ k) :
    StrictlyIncreasing (keys.take i ++ k :: keys.drop i) ∧
    k2 ∉ keys.take i ++ k :: keys.drop i ∧
    (keys.take i ++ k :: keys.drop i).length = keys.length + 1 ∧
    (keys.take i ++ k :: keys.drop i).countP (fun x => decide (x < k2))
      = keys.countP (fun x => decide (x < k2)) + (if k < k2 then 1 else 0) := by
  have hb : bisect keys k = .ok i := by rw [bisect_eq_countP keys k hs.nonDecreasing, hidx]
  have hki : keys[i] ≠ k := fun h => habs (h ▸ List.getElem_mem hi)
  refine ⟨insert_at_bisect_sorted keys k i hs hb hi hki, ?_, ?_, countP_insert keys i k k2⟩
  · intro hmem
    have hsplit : k2 ∈ keys ↔ k2 ∈ keys.take i ∨ k2 ∈ keys.drop i := by
      rw [← List.mem_append, List.take_append_drop]
    rw [List.mem_append, List.mem_cons] at hmem
    rcases hmem with h | h | h
    · exact h2abs (hsplit.mpr (Or.inl h))
    · exact hne h
    · exact h2abs (hsplit.mpr (Or.inr h))
  · simp; omega

/-- Evaluation of `addNode` for an absent slot `k` with `i < len(keys)` keys below it: the key
is inserted at `i`; the node is inserted at `i` and the call returns when `i ≤ len(nodes)`,
otherwise the second `slices.Insert` panics. -/
theorem addNode_eval_lt (c : ConsistentHashing) (node : StorageNode) (k : Int)
    (hkeys : StrictlyIncreasing c.keys) (hguard : c.currentSlots ≠ c.totalSlots)
    (hk : hashFun c node.host = .ok k) (habs : k ∉ c.keys)
    (i : Nat) (hidx : c.keys.countP (fun x => decide (x < k)) = i)
    (hi : i < c.keys.length) :
    addNode c node =
      (if i ≤ c.nodes.length then .ok () else .error .indexOutOfRange,
       { c with keys := c.keys.take i ++ k :: c.keys.drop i,
                nodes := if i ≤ c.nodes.length then c.nodes.take i ++ node :: c.nodes.drop i
                         else c.nodes }) := by
  by_cases hn : i ≤ c.nodes.length
  · rw [addNode_eval_ok c node k hkeys hguard hk habs i hidx hi hn]
    simp only [hn, if_true]
  · rw [addNode_eval_keys_only c node k hkeys hguard hk habs i hidx hi (by omega)]
    simp only [hn, if_false]

/-- The two orders of insertion for absent slots `a < b`: the rings left by the two orders are
equal, and both calls return in one order exactly when both return in the other. -/
theorem addNode_order_aux (c : ConsistentHashing) (A B : StorageNode) (a b : Int)
    (hkeys : StrictlyIncreasing c.keys)
    (ha : hashFun c A.host = .ok a) (hb : hashFun c B.host = .ok b)
    (hab : a < b) (haabs : a ∉ c.keys) (hbabs : b ∉ c.keys) :
    (addNode (addNode c A).2 B).2 = (addNode (addNode c B).2 A).2 ∧
    (((addNode c A).1 = .ok () ∧ (addNode (addNode c A).2 B).1 = .ok ()) ↔
     ((addNode c B).1 = .ok () ∧ (addNode (addNode c B).2 A).1 = .ok ())) := by
  by_cases hfull : c.currentSlots = c.totalSlots
  · have eA := addNode_guard c A hfull
    have eB := addNode_guard c B hfull
    simp [eA, eB]
  · obtain ⟨iA, hiA⟩ : ∃ i, c.keys.countP (fun x => decide (x < a)) = i := ⟨_, rfl⟩
    obtain ⟨iB, hiB⟩ : ∃ i, c.keys.countP (fun x => decide (x < b)) = i := ⟨_, rfl⟩
    have hAB : iA ≤ iB := by
      rw [← hiA, ← hiB]
      apply List.countP_mono_left
      intro x _ hx
      simp only [decide_eq_true_eq] at hx ⊢
      omega
    have hBn : iB ≤ c.keys.length := by
      rw [← hiB]; exact List.countP_le_length _
    by_cases hB : iB < c.keys.length
    · -- both keys are inserted, in either order
      have hA : iA < c.keys.length := by omega
      have eA := addNode_eval_lt c A a hkeys hfull ha haabs iA hiA hA
      have eB := addNode_eval_lt c B b hkeys hfull hb hbabs iB hiB hB
      obtain ⟨hs1, hb1, hl1, hc1⟩ :=
        keys_after_insert c.keys a b iA hkeys hiA hA haabs hbabs (by omega)
      obtain ⟨hs3, ha3, hl3, hc3⟩ :=
        keys_after_insert c.keys b a iB hkeys hiB hB hbabs haabs (by omega)
      have hc1' : (c.keys.take iA ++ a :: c.keys.drop iA).countP (fun x => decide (x < b))
          = iB + 1 := by rw [hc1, hiB]; simp [hab]
      have hc3' : (c.keys.take iB ++ b :: c.keys.drop iB).countP (fun x => decide (x < a))
          = iA := by rw [hc3, hiA]; simp [not_lt.mpr (le_of_lt hab)]
      have eB1 := addNode_eval_lt (addNode c A).2 B b (by rw [eA]; exact hs1)
        (by rw [eA]; exact hfull) (by rw [eA]; exact hb) (by rw [eA]; exact hb1) (iB + 1)
        (by rw [eA]; exact hc1') (by rw [eA]; show iB + 1 < _; rw [hl1]; omega)
      have eA3 := addNode_eval_lt (addNode c B).2 A a (by rw [eB]; exact hs3)
        (by rw [eB]; exact hfull) (by rw [eB]; exact ha) (by rw [eB]; exact ha3) iA
        (by rw [eB]; exact hc3') (by rw [eB]; show iA < _; rw [hl3]; omega)
      have hK := insert_insert_comm c.keys iA iB a b hAB hBn
      have hlenA : (c.nodes.take iA ++ A :: c.nodes.drop iA).length = c.nodes.length + 1 := by
        simp; omega
      have hlenB : (c.nodes.take iB ++ B :: c.nodes.drop iB).length = c.nodes.length + 1 := by
        simp; omega
      rw [eB1, eA3, eA, eB]
      dsimp only
      by_cases hL1 : iB ≤ c.nodes.length
      · have hL0 : iA ≤ c.nodes.length := by omega
        have hN := insert_insert_comm c.nodes iA iB A B hAB hL1
        have c1 : iB + 1 ≤ (c.nodes.take iA ++ A :: c.nodes.drop iA).length := by
          rw [hlenA]; omega
        have c3 : iA ≤ (c.nodes.take iB ++ B :: c.nodes.drop iB).length := by
          rw [hlenB]; omega
        simp only [hL0, hL1, if_true, c1, c3, hK, hN, and_self]
      · by_cases hL0 : iA ≤ c.nodes.length
        · have c1 : ¬ iB + 1 ≤ (c.nodes.take iA ++ A :: c.nodes.drop iA).length := by
            rw [hlenA]; omega
          simp only [hL0, hL1, if_true, if_false, c1, hK]
          simp
        · have c1 : ¬ iB + 1 ≤ c.nodes.length := by omega
          simp only [hL0, hL1, if_false, c1, hK]
          simp
    · -- the larger slot lies above every key: its insertion panics in either order
      have eB := addNode_eval_fail c B b hkeys hfull hb iB hiB (by omega)
      by_cases hA : iA < c.keys.length
      · have eA := addNode_eval_lt c A a hkeys hfull ha haabs iA hiA hA
        obtain ⟨hs1, hb1, hl1, hc1⟩ :=
          keys_after_insert c.keys a b iA hkeys hiA hA haabs hbabs (by omega)
        have hc1' : (c.keys.take iA ++ a :: c.keys.drop iA).countP (fun x => decide (x < b))
            = iB + 1 := by rw [hc1, hiB]; simp [hab]
        have eB1 := addNode_eval_fail (addNode c A).2 B b (by rw [eA]; exact hs1)
          (by rw [eA]; exact hfull) (by rw [eA]; exact hb) (iB + 1)
          (by rw [eA]; exact hc1') (by rw [eA]; show _ ≤ iB + 1; rw [hl1]; omega)
        rw [eB1, eB]
        simp
      · have eA := addNode_eval_fail c A a hkeys hfull ha iA hiA (by omega)
        simp [eA, eB]

/-! ## Sorted insertion -/

/-- When no element of `s` is larger than `ele`, the search of `insertSorted` runs over the
appended element too and returns `len(s) + 1`, and `s[i+1:]` is out of range. -/
theorem insertSorted_panics_at_end (s : List Int) (ele : Int) (hall : ∀ x ∈ s, x ≤ ele) :
    insertSorted s ele = .error .indexOutOfRange := by
  have hf : ∀ h, h < (s ++ [ele]).length →
      (fun i => match (s ++ [ele])[i]? with
        | none => (.error .indexOutOfRange : Except Failure Bool)
        | some v => .ok (decide (v > ele))) h = .ok ((fun _ => false) h) := by
    intro h hh
    have hmem : (s ++ [ele])[h] ∈ s ++ [ele] := List.getElem_mem hh
    have hle : (s ++ [ele])[h] ≤ ele := by
      rcases List.mem_append.mp hmem with hs | he
      · exact hall _ hs
      · simp at he; omega
    simp only [List.getElem?_eq_getElem hh]
    simp
    exact hle
  obtain ⟨r, hr, -, hrn, -, hhi⟩ := sortSearchLoop_spec _ (fun _ => false) (s ++ [ele]).length hf
    (by intro a b _ _ h; exact h) (s ++ [ele]).length 0 (s ++ [ele]).length
    (Nat.zero_le _) (le_refl _) (by omega) (by intro a ha; omega) (by intro a ha han; omega)
  have hrl : r = (s ++ [ele]).length := by
    by_contra hne
    have hlt : r < (s ++ [ele]).length := by omega
    have := hhi r (le_refl _) hlt
    simp at this
  rw [hrl] at hr
  unfold insertSorted
  dsimp only
  split
  · rename_i e he
    have hcontra : (Except.error e : Except Failure Nat) = .ok (s ++ [ele]).length :=
      he.symm.trans hr
    cases hcontra
  · rename_i i hi
    have hEq : (Except.ok i : Except Failure Nat) = .ok (s ++ [ele]).length :=
      hi.symm.trans hr
    have hil : i = (s ++ [ele]).length := Except.ok.inj hEq
    rw [hil]
    simp

/-! ## The claims, continued -/

/-- C11, evaluated at the failing input: in the ring `100 → X, 400 → Y, 700 → Z` the counter
`currentSlots` is 3, the number of keys; `addNode(W)` succeeds, and afterwards the ring has
four keys while the counter is still 3. -/
theorem addNode_leaves_counter_stale :
    ringXYZ.currentSlots = ringXYZ.keys.length ∧
    (addNode ringXYZ nodeW).1 = .ok () ∧
    (addNode ringXYZ nodeW).2.currentSlots = 3 ∧
    (addNode ringXYZ nodeW).2.keys.length = 4 := by
  decide

/-- C12: insertion-order independence.  For a ring with strictly increasing keys and two
nodes `A` and `B` whose slots are distinct and absent from the ring, `addNode(A)` followed by
`addNode(B)` leaves the same ring, with the same `keys` and the same `nodes`, as `addNode(B)`
followed by `addNode(A)`; and both calls return in one order exactly when both return in the
other.  (A call whose slot lies above every key panics and changes nothing, in either
order.) -/
theorem addNode_order_irrelevant (c : ConsistentHashing) (A B : StorageNode) (a b : Int)
    (hkeys : StrictlyIncreasing c.keys)
    (ha : hashFun c A.host = .ok a) (hb : hashFun c B.host = .ok b)
    (hab : a ≠ b) (haabs : a ∉ c.keys) (hbabs : b ∉ c.keys) :
    (run c [.add A, .add B]).keys = (run c [.add B, .add A]).keys ∧
    (run c [.add A, .add B]).nodes = (run c [.add B, .add A]).nodes ∧
    run c [.add A, .add B] = run c [.add B, .add A] ∧
    (((addNode c A).1 = .ok () ∧ (addNode (addNode c A).2 B).1 = .ok ()) ↔
     ((addNode c B).1 = .ok () ∧ (addNode (addNode c B).2 A).1 = .ok ())) := by
  have hboth : run c [.add A, .add B] = run c [.add B, .add A] ∧
      (((addNode c A).1 = .ok () ∧ (addNode (addNode c A).2 B).1 = .ok ()) ↔
       ((addNode c B).1 = .ok () ∧ (addNode (addNode c B).2 A).1 = .ok ())) := by
    rcases lt_or_gt_of_ne hab with h | h
    · exact addNode_order_aux c A B a b hkeys ha hb h haabs hbabs
    · obtain ⟨h1, h2⟩ := addNode_order_aux c B A b a hkeys hb ha h hbabs haabs
      exact ⟨h1.symm, h2.symm⟩
  exact ⟨by rw [hboth.1], by rw [hboth.1], hboth.1, hboth.2⟩

/-- Witness for C12: on the ring `100 → X, 400 → Y, 700 → Z` the slots 250 of `W` and 500 of
`U` are distinct and absent; both orders of insertion give the keys
`[100, 250, 400, 500, 700]` and the nodes `[X, W, Y, U, Z]`. -/
theorem addNode_order_irrelevant_witness :
    hashFun ringXYZ nodeW.host = .ok 250 ∧ hashFun ringXYZ nodeU.host = .ok 500 ∧
    (run ringXYZ [.add nodeU, .add nodeW]).keys = [100, 250, 400, 500, 700] ∧
    (run ringXYZ [.add nodeU, .add nodeW]).nodes = [nodeX, nodeW, nodeY, nodeU, nodeZ] := by
  have hW : hashFun ringXYZ nodeW.host = .ok 250 := by decide
  have hU : hashFun ringXYZ nodeU.host = .ok 500 := by decide
  have hthm := addNode_order_irrelevant ringXYZ nodeW nodeU 250 500 (by decide) hW hU
    (by decide) (by decide) (by decide)
  have hkeys : (run ringXYZ [.add nodeW, .add nodeU]).keys = [100, 250, 400, 500, 700] := by
    decide
  have hnodes : (run ringXYZ [.add nodeW, .add nodeU]).nodes
      = [nodeX, nodeW, nodeY, nodeU, nodeZ] := by
    decide
  exact ⟨hW, hU, hthm.1 ▸ hkeys, hthm.2.1 ▸ hnodes⟩

/-- Counterexample to C13 as stated: `NewConsistentHashing(0)` and
`NewConsistentHashing(-5)` return rings; nothing is rejected. -/
theorem NewConsistentHashing_accepts_nonpositive :
    NewConsistentHashing 0 = { totalSlots := 0, currentSlots := 0, keys := [], nodes := [] } ∧
    NewConsistentHashing (-5)
      = { totalSlots := -5, currentSlots := 0, keys := [], nodes := [] } := by
  decide

/-- C13, amended: for every `M ≤ 0`, `NewConsistentHashing(M)` returns a ring, with
`totalSlots = M`, `currentSlots = 0` and no entries.  A modulus of zero is noticed at the
first use only: every `addNode` stops at the capacity guard and every `hashFun` panics with a
division by zero. -/
theorem NewConsistentHashing_never_fails (M : Int) (hM : M ≤ 0) :
    NewConsistentHashing M = { totalSlots := M, currentSlots := 0, keys := [], nodes := [] } ∧
    (M = 0 →
      (∀ node, addNode (NewConsistentHashing M) node
        = (.error (.fatal "Can not increase number of nodes"), NewConsistentHashing M)) ∧
      (∀ key, hashFun (NewConsistentHashing M) key = .error .divisionByZero)) := by
  refine ⟨rfl, ?_⟩
  intro h0
  subst h0
  constructor
  · intro node
    rfl
  · intro key
    simp [hashFun, bigMod, NewConsistentHashing]

/-- Witness for C13, amended: `NewConsistentHashing(0)` returns the empty ring with modulus
0, on which `addNode(X)` stops at the capacity guard. -/
theorem NewConsistentHashing_never_fails_witness :
    (0 : Int) ≤ 0 ∧
    NewConsistentHashing 0 = { totalSlots := 0, currentSlots := 0, keys := [], nodes := [] } ∧
    addNode (NewConsistentHashing 0) nodeX
      = (.error (.fatal "Can not increase number of nodes"), NewConsistentHashing 0) :=
  ⟨le_refl _, (NewConsistentHashing_never_fails 0 (le_refl _)).1,
    ((NewConsistentHashing_never_fails 0 (le_refl _)).2 rfl).1 nodeX⟩

/-- C14: determinism of assignment.  For every ring and every item, `assign(item)` leaves the
ring as it found it, so a second call on the ring gives the same outcome as the first: the
same node or the same failure. -/
theorem assign_deterministic (c : ConsistentHashing) (item : GoString) :
    (assign c item).2 = c ∧ assign (assign c item).2 item = assign c item := by
  have hstate : (assign c item).2 = c := by
    unfold assign
    repeat' first | split | (dsimp only; split)
    all_goals rfl
  exact ⟨hstate, by rw [hstate]⟩


/-- C15: successful insertion preserves the ring invariant.  For a ring with strictly
increasing keys and a `nodes` slice of the same length, when `addNode(node)` succeeds the new
keys are strictly increasing, keys and nodes both have one element more and equal lengths,
the slot `hashFun(node.host)` and `node` sit at one and the same index, and erasing that index
gives the old keys and the old nodes back: every previous (slot, node) pair is still there,
in the same order. -/
theorem addNode_preserves_invariant (c : ConsistentHashing) (node : StorageNode)
    (c2 : ConsistentHashing) (hkeys : StrictlyIncreasing c.keys)
    (hlen : c.nodes.length = c.keys.length) (hok : addNode c node = (.ok (), c2)) :
    StrictlyIncreasing c2.keys ∧
    c2.keys.length = c.keys.length + 1 ∧ c2.nodes.length = c2.keys.length ∧
    ∃ k i, hashFun c node.host = .ok k ∧
      c2.keys[i]? = some k ∧ c2.nodes[i]? = some node ∧
      c2.keys.eraseIdx i = c.keys ∧ c2.nodes.eraseIdx i = c.nodes ∧
      (c.keys.zip c.nodes).Sublist (c2.keys.zip c2.nodes) := by
  obtain ⟨k, i, -, hk, hb, ⟨hi, hne⟩, hin, rfl⟩ := addNode_ok c node c2 hok
  refine ⟨insert_at_bisect_sorted c.keys k i hkeys hb hi hne, ?_, ?_, k, i, hk,
    getElem?_insert c.keys i k (by omega), getElem?_insert c.nodes i node hin,
    eraseIdx_insert c.keys i k (by omega), eraseIdx_insert c.nodes i node hin, ?_⟩
  · simp; omega
  · simp; omega
  · have hz : (c.keys.take i ++ k :: c.keys.drop i).zip (c.nodes.take i ++ node :: c.nodes.drop i)
        = (c.keys.take i).zip (c.nodes.take i) ++ (k, node) :: (c.keys.drop i).zip (c.nodes.drop i) := by
      rw [List.zip_append (by simp; omega)]
      rfl
    have hz0 : c.keys.zip c.nodes
        = (c.keys.take i).zip (c.nodes.take i) ++ (c.keys.drop i).zip (c.nodes.drop i) := by
      rw [← List.zip_append (by simp; omega), List.take_append_drop, List.take_append_drop]
    show (c.keys.zip c.nodes).Sublist
      ((c.keys.take i ++ k :: c.keys.drop i).zip (c.nodes.take i ++ node :: c.nodes.drop i))
    rw [hz, hz0]
    exact List.Sublist.append (List.Sublist.refl _) (List.sublist_cons_self _ _)


/-- Witness for C15: `addNode(W)` on the ring `100 → X, 400 → Y, 700 → Z` succeeds and gives
`100 → X, 250 → W, 400 → Y, 700 → Z`, with strictly increasing keys and parallel slices. -/
theorem addNode_preserves_invariant_witness :
    addNode ringXYZ nodeW = (.ok (), ringXWYZ) ∧ StrictlyIncreasing ringXWYZ.keys ∧
    ringXWYZ.nodes.length = ringXWYZ.keys.length := by
  have hok : addNode ringXYZ nodeW = (.ok (), ringXWYZ) := by decide
  have hthm := addNode_preserves_invariant ringXYZ nodeW ringXWYZ (by decide) (by decide) hok
  exact ⟨hok, hthm.1, hthm.2.2.1⟩


/-- C16: `bisect` is a lower-bound search.  On a non-decreasing slice `bisect(keys, key)`
returns (the loop terminates) an index `r ≤ len(keys)` such that every element before `r` is
smaller than `key` and every element from `r` on is at least `key`; `r` is the least index
with the second property, it is `len(keys)` exactly when all elements are smaller than `key`,
and it is 0 on the empty slice. -/
theorem bisect_lower_bound (keys : List Int) (key : Int) (hs : keys.Pairwise (· ≤ ·)) :
    (∃ r, bisect keys key = .ok r ∧ r ≤ keys.length ∧
      (∀ a (h : a < keys.length), a < r → keys[a] < key) ∧
      (∀ a (h : a < keys.length), r ≤ a → key ≤ keys[a]) ∧
      (∀ i, i ≤ keys.length → (∀ a (h : a < keys.length), i ≤ a → key ≤ keys[a]) → r ≤ i) ∧
      (r = keys.length ↔ ∀ k ∈ keys, k < key)) ∧
    bisect [] key = .ok 0 := by
  refine ⟨?_, rfl⟩
  obtain ⟨r, hr, hrn, h1, h2⟩ := bisect_spec keys key hs
  refine ⟨r, hr, hrn, h1, h2, ?_, ?_⟩
  · intro i hi hall
    by_contra hlt
    have hir : i < r := by omega
    have hik : i < keys.length := by omega
    have hA := h1 i hik hir
    have hB := hall i hik (le_refl _)
    omega
  · constructor
    · intro hrl k hk
      obtain ⟨a, ha, rfl⟩ := List.getElem_of_mem hk
      exact h1 a ha (by omega)
    · intro hall
      by_contra hne
      have hlt : r < keys.length := by omega
      have hA := h2 r hlt (le_refl _)
      have hB := hall keys[r] (List.getElem_mem hlt)
      omega


/-- Witness for C16: on the slice `[100, 400, 700]` the search for 401 returns index 2. -/
theorem bisect_lower_bound_witness :
    bisect [100, 400, 700] 401 = .ok 2 := by
  obtain ⟨⟨r, hr, hrn, h1, h2, hleast, -⟩, -⟩ :=
    bisect_lower_bound [100, 400, 700] 401 (by decide)
  have h2r : r ≤ 2 := hleast 2 (by decide) (by
    intro a h ha
    have ha2 : a = 2 := by simp at h; omega
    subst ha2
    simp)
  have hr2 : ¬ r < 2 := by
    intro hlt
    have hlt3 : r < [100, 400, 700].length := by simp; omega
    have hge := h2 r hlt3 (le_refl _)
    have hr01 : r = 0 ∨ r = 1 := by omega
    rcases hr01 with h0 | h1'
    · subst h0; simp at hge
    · subst h1'; simp at hge
  have hEq : r = 2 := by omega
  rw [hr, hEq]


/-- C17: no operation ever updates the size counter.  One call of `addNode` or `removeNode`
leaves `totalSlots` and `currentSlots` of any ring as they were; after any finite sequence of
such calls on the ring returned by `NewConsistentHashing(M)`, `totalSlots` is `M` and
`currentSlots` is 0, and `assign(item)` stops with a division by zero for every item.  When
`M ≠ 0` the slot and the search are computed, so the division is the index modulus. -/
theorem counters_never_updated (M : Int) (ops : List Op) (item : GoString)
    (c : ConsistentHashing) (op : Op) :
    ((step c op).totalSlots = c.totalSlots ∧ (step c op).currentSlots = c.currentSlots) ∧
    (run (NewConsistentHashing M) ops).totalSlots = M ∧
    (run (NewConsistentHashing M) ops).currentSlots = 0 ∧
    assign (run (NewConsistentHashing M) ops) item
      = (.error .divisionByZero, run (NewConsistentHashing M) ops) ∧
    (M ≠ 0 → ∃ h b, hashFun (run (NewConsistentHashing M) ops) item = .ok h ∧
      bisect (run (NewConsistentHashing M) ops).keys h = .ok b) := by
  have hstep : ∀ (d : ConsistentHashing) (o : Op),
      (step d o).totalSlots = d.totalSlots ∧ (step d o).currentSlots = d.currentSlots := by
    intro d o
    cases o with
    | add node => exact addNode_counters d node
    | remove node =>
      show (removeNode d node).2.totalSlots = _ ∧ (removeNode d node).2.currentSlots = _
      rw [removeNode_state]
      exact ⟨rfl, rfl⟩
  have hkeys : ∀ (l : List Op) (d : ConsistentHashing), d.keys = [] → run d l = d := by
    intro l
    induction l with
    | nil => intro d _; rfl
    | cons o l ih =>
      intro d hd
      have hs : step d o = d := by
        cases o with
        | add node =>
          obtain ⟨e, he⟩ := addNode_no_keys d node hd
          show (addNode d node).2 = d
          rw [he]
        | remove node => exact removeNode_state d node
      show run (step d o) l = d
      rw [hs]
      exact ih d hd
  have hrun : run (NewConsistentHashing M) ops = NewConsistentHashing M := hkeys ops _ rfl
  refine ⟨hstep c op, ?_, ?_, ?_, ?_⟩
  · rw [hrun]; rfl
  · rw [hrun]; rfl
  rotate_left
  · intro hM
    rw [hrun]
    obtain ⟨key, hh⟩ := (hashFun_ok_iff (NewConsistentHashing M) item).mpr hM
    exact ⟨key, 0, hh, rfl⟩
  · rw [hrun]
    unfold assign
    by_cases hM : M = 0
    · have hh : hashFun (NewConsistentHashing M) item = .error .divisionByZero := by
        simp [hashFun, bigMod, NewConsistentHashing, hM]
      simp only [hh]
    · obtain ⟨key, hh⟩ := (hashFun_ok_iff (NewConsistentHashing M) item).mpr hM
      have hb : bisect (NewConsistentHashing M).keys key = .ok 0 := rfl
      simp only [hh, hb]
      rfl

/-- C18, evaluated at failing inputs: `insertSorted` panics with an out-of-range slice
expression on the empty slice, on `[1, 3]` with 7 (an element that belongs at the end) and on
`[1, 5, 9, 11]` with 10 (an element that belongs in the middle). -/
theorem insertSorted_panics :
    insertSorted [] 5 = .error .indexOutOfRange ∧
    insertSorted [1, 3] 7 = .error .indexOutOfRange ∧
    insertSorted [1, 5, 9, 11] 10 = .error .indexOutOfRange := by
  decide

end CHash
